import Mathlib

/-!
# Verhoeff check digits: the tables and the two operations of `verhoeff-algo.cpp`

The C++ program keeps three global `int` arrays (`d`, `p`, `inv`) and two
functions over a `std::string`: `verhoeffValidate` and `verhoeffGenerate`.
Below they are embedded as Lean definitions and the properties stated for
them are settled against these definitions.

Conventions of the embedding.
* A `std::string` is a `List Char`; `num[i]` is the character at index `i`, and
  a `char` with code below 256 is the `Char` with that code.
* A C++ `int` is a 32-bit two's complement integer, embedded as an `Int` in
  `-2^31 .. 2^31 - 1`. The loop index starts at `int i = num.size() - 1`: the
  subtraction is unsigned 64-bit arithmetic on `size_t` and the result is
  converted to `int` modulo `2^32` (`loopStart`). For the empty string this is
  `-1`; for a string of more than `INT_MAX` characters it is negative or the
  index of a character short of the last one, so the loop is skipped or visits
  only the first characters of the string.
* Overflow of a signed `int` (`pos++` and `pos + 1` beyond `INT_MAX`) is
  undefined behaviour in C++; the embedding returns `none` for it.
* An array read with an index outside the array is undefined behaviour in C++;
  the embedding returns `none` for it, and `some v` for a read that is defined.
-/

namespace Verhoeff

/-- The global `int d[10][10]` of the source, row by row. -/
def d : List (List Int) :=
  [ [0,1,2,3,4,5,6,7,8,9],
    [1,2,3,4,5,6,7,8,9,0],
    [2,3,4,5,6,7,8,9,0,1],
    [3,4,5,6,7,8,9,0,1,2],
    [4,5,6,7,8,9,0,1,2,3],
    [5,6,7,8,9,0,1,2,3,4],
    [6,7,8,9,0,1,2,3,4,5],
    [7,8,9,0,1,2,3,4,5,6],
    [8,9,0,1,2,3,4,5,6,7],
    [9,0,1,2,3,4,5,6,7,8] ]

/-- The global `int p[8][10]` of the source, row by row. -/
def p : List (List Int) :=
  [ [0,1,2,3,4,5,6,7,8,9],
    [1,5,7,6,2,8,3,0,9,4],
    [5,8,0,3,7,9,6,1,4,2],
    [8,9,1,6,0,4,3,5,2,7],
    [9,4,5,3,1,2,6,8,7,0],
    [4,2,8,6,5,7,3,9,0,1],
    [2,7,9,3,8,0,6,4,1,5],
    [7,0,4,6,9,1,3,2,5,8] ]

/-- The global `int inv[10]` of the source. -/
def inv : List Int := [0,4,3,2,1,5,6,7,8,9]

/-- Read `a[i]` of a one-dimensional `int` array with an `int` index: the
element when `0 ≤ i < length`, undefined (`none`) otherwise. -/
def read1 (a : List Int) (i : Int) : Option Int :=
  if 0 ≤ i then a[i.toNat]? else none

/-- Read `a[i][j]` of a two-dimensional `int` array with `int` indices: the
element when both indices are inside their dimension, undefined (`none`)
otherwise. -/
def read2 (a : List (List Int)) (i j : Int) : Option Int :=
  if 0 ≤ i then
    match a[i.toNat]? with
    | some row => read1 row j
    | none => none
  else none

/-- The conversion `num[i] - '0'` of a character to an `int`. The `char` is
promoted to `int` first; `char` is signed on the usual targets, so a byte
`128 .. 255` is promoted to its value minus 256. -/
def toDigit (ch : Char) : Int :=
  if 128 ≤ ch.toNat ∧ ch.toNat < 256 then (ch.toNat : Int) - 256 - ('0'.toNat : Int)
  else (ch.toNat : Int) - ('0'.toNat : Int)

/-- The largest value of an `int`. -/
def INT_MAX : Int := 2147483647

/-- Conversion of an unsigned value to `int`: the value modulo `2^32`, taken in
`-2^31 .. 2^31 - 1`. -/
def toInt (n : Nat) : Int :=
  if n % 4294967296 < 2147483648 then ((n % 4294967296 : Nat) : Int)
  else ((n % 4294967296 : Nat) : Int) - 4294967296

/-- The initial loop index `int i = num.size() - 1` for a string of the given
size: `size - 1` in unsigned 64-bit arithmetic (`2^64 - 1` for size 0),
converted to `int`. -/
def loopStart (size : Nat) : Int :=
  toInt ((size + 18446744073709551615) % 18446744073709551616)

/-- The `for` loop of `verhoeffValidate`. The first numeric argument is `i + 1`
for the loop index `i` (so `0` is the exit `i = -1`); `pos` and `c` are the
loop's other two variables. One iteration reads `num[i]`, sets
`c = d[c][p[pos % 8][digit]]`, and continues with `i - 1` and `pos + 1`; the
increment `pos++` is undefined when it leaves the range of `int`. (`pos` is
never negative, so `%` is the C++ remainder.) -/
def validateLoop (num : List Char) : Nat → Int → Int → Option Int
  | 0, _, c => some c
  | i + 1, pos, c =>
    match num[i]? with
    | none => none
    | some ch =>
      match read2 p (pos % 8) (toDigit ch) with
      | none => none
      | some x =>
        match read2 d c x with
        | none => none
        | some c1 => if pos + 1 ≤ INT_MAX then validateLoop num i (pos + 1) c1 else none

/-- The function `bool verhoeffValidate(string num)`: run the loop from
`int i = num.size() - 1` with `pos = 0`, `c = 0`, and return `c == 0`. -/
def verhoeffValidate (num : List Char) : Option Bool :=
  (validateLoop num (loopStart num.length + 1).toNat 0 0).map (fun c => decide (c = 0))

/-- The `for` loop of `verhoeffGenerate`: as `validateLoop`, but the row of `p`
is `(pos + 1) % 8`, and `pos + 1` is undefined when it leaves the range of
`int`. -/
def generateLoop (num : List Char) : Nat → Int → Int → Option Int
  | 0, _, c => some c
  | i + 1, pos, c =>
    match num[i]? with
    | none => none
    | some ch =>
      if pos + 1 ≤ INT_MAX then
        match read2 p ((pos + 1) % 8) (toDigit ch) with
        | none => none
        | some x =>
          match read2 d c x with
          | none => none
          | some c1 => generateLoop num i (pos + 1) c1
      else none

/-- The function `int verhoeffGenerate(string num)`: run the loop from
`int i = num.size() - 1` with `pos = 0`, `c = 0`, and return `inv[c]`. -/
def verhoeffGenerate (num : List Char) : Option Int :=
  (generateLoop num (loopStart num.length + 1).toNat 0 0).bind (read1 inv)

/-- The character that `main` prints for a one-digit `int` check value when it
writes `partial << check`. -/
def digitChar (k : Int) : Char := Char.ofNat (48 + k.toNat)

/-- A character is one of `'0'` .. `'9'`. -/
def IsDigit (ch : Char) : Prop := 48 ≤ ch.toNat ∧ ch.toNat ≤ 57

instance (ch : Char) : Decidable (IsDigit ch) := by
  unfold IsDigit; infer_instance

/-- The fixed example string `partial` of `main`. -/
def examplePayload : List Char := ['8','2','3','5','1','9','7','4','0','6','2']

/-! ## Reference data: the published Verhoeff tables and algorithm

These are not taken from the program: they are the tables of the Verhoeff
scheme as published (the dihedral group of order 10 with elements `0..4` the
rotations and `5..9` the reflections, the position permutations generated by
`(1 5 8 9 4 2 7 0)(3 6)`, and the group inverses), and the check-digit
computation described for them. The program is compared against them. -/

/-- Reference multiplication table of the Verhoeff scheme: the Cayley table of
the dihedral group D5. -/
def canonicalD : List (List Int) :=
  [ [0,1,2,3,4,5,6,7,8,9],
    [1,2,3,4,0,6,7,8,9,5],
    [2,3,4,0,1,7,8,9,5,6],
    [3,4,0,1,2,8,9,5,6,7],
    [4,0,1,2,3,9,5,6,7,8],
    [5,9,8,7,6,0,4,3,2,1],
    [6,5,9,8,7,1,0,4,3,2],
    [7,6,5,9,8,2,1,0,4,3],
    [8,7,6,5,9,3,2,1,0,4],
    [9,8,7,6,5,4,3,2,1,0] ]

/-- Reference permutation table of the Verhoeff scheme: row `i` is the `i`-th
power of the permutation `(1 5 8 9 4 2 7 0)(3 6)`. -/
def canonicalP : List (List Int) :=
  [ [0,1,2,3,4,5,6,7,8,9],
    [1,5,7,6,2,8,3,0,9,4],
    [5,8,0,3,7,9,6,1,4,2],
    [8,9,1,6,0,4,3,5,2,7],
    [9,4,5,3,1,2,6,8,7,0],
    [4,2,8,6,5,7,3,9,0,1],
    [2,7,9,3,8,0,6,4,1,5],
    [7,0,4,6,9,1,3,2,5,8] ]

/-- Reference inverse table of the Verhoeff scheme: entry `j` is the inverse of
`j` in the group tabulated by `canonicalD`. -/
def canonicalInv : List Int := [0,4,3,2,1,5,6,7,8,9]

/-- Product of two elements of the dihedral group D5 written on `0..9`:
`i < 5` is the rotation by `i` steps, `5 + i` the reflection followed by it. -/
def dihedralMul (i j : Nat) : Nat :=
  if i < 5 then
    if j < 5 then (i + j) % 5 else 5 + (i + (j - 5)) % 5
  else
    if j < 5 then 5 + ((i - 5) + (5 - j)) % 5 else ((i - 5) + (5 - (j - 5))) % 5

/-- Entry `(i, j)` of a table as a total function (`0` outside the table). -/
def entry2 (a : List (List Int)) (i j : Nat) : Nat := ((a.getD i []).getD j 0).toNat

/-- Entry `i` of a one-row table as a total function (`0` outside the table). -/
def entry1 (a : List Int) (i : Nat) : Nat := (a.getD i 0).toNat

/-- The decimal digits a string of digit characters stands for, left to right. -/
def digitsOf (num : List Char) : List Nat := num.map (fun ch => ch.toNat - 48)

/-- Reference check-digit computation of the Verhoeff scheme on a payload given
as its digits, left to right: with `x` the digit at zero-based position `pos`
counted from the right, `c` starts at `0` and becomes
`canonicalD[c][canonicalP[(pos + 1) mod 8][x]]` digit by digit; the check digit
is `canonicalInv[c]`. -/
def referenceGenerate (digits : List Nat) : Nat :=
  entry1 canonicalInv
    (digits.reverse.enum.foldl
      (fun c (px : Nat × Nat) => entry2 canonicalD c (entry2 canonicalP ((px.1 + 1) % 8) px.2)) 0)

/-- Reference validity test of the Verhoeff scheme on a number given as its
digits, left to right: the same accumulation with row `pos mod 8`, valid when
the final `c` is `0`. -/
def referenceValidate (digits : List Nat) : Bool :=
  digits.reverse.enum.foldl
      (fun c (px : Nat × Nat) => entry2 canonicalD c (entry2 canonicalP (px.1 % 8) px.2)) 0 == 0

/-! ## The recurrences stated for the two operations

These follow the description of the two operations, not the program text: the
digits of a number are `x_0` (rightmost), `x_1`, ..., `x_{n-1}` (leftmost), and
an accumulator `c_k` is defined by recurrence on the number of digits taken.
The tables read are the program's `d` and `p`. -/

/-- The digit `x_k` of a number given by its digits left to right: the digit at
zero-based position `k` counted from the right. -/
def digitFromRight (digits : List Nat) (k : Nat) : Nat := digits.reverse.getD k 0

/-- The recurrence stated for validation: `c_0 = 0` and
`c_{k+1} = d[c_k][p[k mod 8][x_k]]`. -/
def validateRecurrence (digits : List Nat) : Nat → Nat
  | 0 => 0
  | k + 1 =>
    entry2 d (validateRecurrence digits k) (entry2 p (k % 8) (digitFromRight digits k))

/-- The recurrence stated for generation: `c_0 = 0` and
`c_{k+1} = d[c_k][p[(k + 1) mod 8][x_k]]`. -/
def generateRecurrence (digits : List Nat) : Nat → Nat
  | 0 => 0
  | k + 1 =>
    entry2 d (generateRecurrence digits k) (entry2 p ((k + 1) % 8) (digitFromRight digits k))

/-- The sum of `p[k mod 8][x_k]` over the positions `k < m`. -/
def permutedDigitSum (digits : List Nat) : Nat → Nat
  | 0 => 0
  | k + 1 => permutedDigitSum digits k + entry2 p (k % 8) (digitFromRight digits k)

/-- Both recurrences at once, for the proofs: the row of `p` used at position
`k` is `(k + off) mod 8`. -/
def shiftedRecurrence (off : Nat) (digits : List Nat) : Nat → Nat
  | 0 => 0
  | k + 1 =>
    entry2 d (shiftedRecurrence off digits k)
      (entry2 p ((k + off) % 8) (digitFromRight digits k))

/-- The accumulation of the two loops without the bounds of `int`, for the
proofs: `k` iterations over the characters at indices `k - 1` down to `0`, the
row of `p` at each one being `pos % 8` for the running `pos`. The loops of the
program agree with it as long as `pos` stays within `int`. -/
def accumulate (num : List Char) : Nat → Int → Int → Option Int
  | 0, _, c => some c
  | i + 1, pos, c =>
    match num[i]? with
    | none => none
    | some ch =>
      match read2 p (pos % 8) (toDigit ch) with
      | none => none
      | some x =>
        match read2 d c x with
        | none => none
        | some c1 => accumulate num i (pos + 1) c1

/-! ## The reference data is what it is said to be -/

/-- The reference multiplication table is the table of `dihedralMul`. -/
theorem canonicalD_eq_dihedralMul :
    ∀ i, i < 10 → ∀ j, j < 10 → entry2 canonicalD i j = dihedralMul i j := by
  decide

/-- The reference multiplication table is a group table on `0..9` with identity
`0` that is not commutative. -/
theorem canonicalD_group :
    (∀ i, i < 10 → ∀ j, j < 10 → entry2 canonicalD i j < 10) ∧
    (∀ i, i < 10 → entry2 canonicalD 0 i = i ∧ entry2 canonicalD i 0 = i) ∧
    (∀ i, i < 10 → ∀ j, j < 10 → ∀ k, k < 10 →
      entry2 canonicalD (entry2 canonicalD i j) k = entry2 canonicalD i (entry2 canonicalD j k)) ∧
    entry2 canonicalD 1 5 ≠ entry2 canonicalD 5 1 := by
  decide

/-- The reference inverse table holds the inverses of the reference
multiplication table. -/
theorem canonicalInv_inverse :
    ∀ i, i < 10 → entry2 canonicalD i (entry1 canonicalInv i) = 0 ∧
      entry2 canonicalD (entry1 canonicalInv i) i = 0 := by
  decide

/-- The rows of the reference permutation table are the successive powers of
its row `1`. -/
theorem canonicalP_powers :
    (∀ x, x < 10 → entry2 canonicalP 0 x = x) ∧
    (∀ i, i < 7 → ∀ x, x < 10 →
      entry2 canonicalP (i + 1) x = entry2 canonicalP 1 (entry2 canonicalP i x)) := by
  decide

/-- Row `1` of the reference permutation table is the permutation
`(1 5 8 9 4 2 7 0)(3 6)`. -/
theorem canonicalP_row_one :
    List.map (entry2 canonicalP 1) [1,5,8,9,4,2,7,0] = [5,8,9,4,2,7,0,1] ∧
    List.map (entry2 canonicalP 1) [3,6] = [6,3] := by
  decide

/-- The reference computation reproduces the published worked example: the
check digit of `236` is `3`, and `2363` is valid. -/
theorem referenceGenerate_published_example :
    referenceGenerate [2,3,6] = 3 ∧ referenceValidate [2,3,6,3] = true := by
  decide

/-! ## The tables of the program -/

/-- C6. The table `d` of the program is not the published Verhoeff
multiplication table: at row 1, column 4 the program holds 5 where the table of
the dihedral group D5 holds 0. The program's `d` is the commutative table of
addition modulo 10, while the published table is not commutative. -/
theorem d_is_not_the_canonical_table :
    d ≠ canonicalD ∧
    read2 d 1 4 = some 5 ∧ read2 canonicalD 1 4 = some 0 ∧
    (∀ i : Fin 10, ∀ j : Fin 10,
      read2 d i.val j.val = some (((i.val + j.val) % 10 : Nat) : Int)) ∧
    (∀ i : Fin 10, ∀ j : Fin 10, read2 d i.val j.val = read2 d j.val i.val) ∧
    read2 canonicalD 1 5 ≠ read2 canonicalD 5 1 := by
  decide

/-- C7. The permutation table `p` and the inverse table `inv` of the program
equal, entry for entry, the published Verhoeff permutation and inverse tables. -/
theorem p_and_inv_are_canonical : p = canonicalP ∧ inv = canonicalInv := by
  decide

/-- C8. The table `inv` does not hold the inverses of the operation tabulated
in the program's `d`: `inv[1]` is 4 and both `d[1][4]` and `d[4][1]` are 5, not
the identity 0 (although 0 is the identity of `d`). -/
theorem inv_is_not_inverse_for_d :
    read1 inv 1 = some 4 ∧ read2 d 1 4 = some 5 ∧ read2 d 4 1 = some 5 ∧
    (∀ y : Fin 10, read2 d 0 y.val = some (y.val : Int) ∧
      read2 d y.val 0 = some (y.val : Int)) := by
  decide

/-- C9. The table `p` has 8 rows, each row is a permutation of `0..9`, and no
two rows are equal. -/
theorem p_rows_are_distinct_permutations :
    p.length = 8 ∧ (∀ row ∈ p, List.Perm row [0,1,2,3,4,5,6,7,8,9]) ∧ p.Nodup := by
  decide

/-! ## Evaluations of the two operations -/

/-- C1. The program's own example does not round-trip: `verhoeffGenerate`
returns 9 for the payload `82351974062`, and `verhoeffValidate` returns false
for the payload with that digit appended. -/
theorem generated_number_is_rejected :
    verhoeffGenerate examplePayload = some 9 ∧ digitChar 9 = '9' ∧
    verhoeffValidate (examplePayload ++ [digitChar 9]) = some false := by
  decide

/-- C2. A single-digit error on a generated number is accepted: for the
payload `82351974062` with its generated digit 9 appended, replacing only the
last digit by the different digit 1 makes `verhoeffValidate` return true. -/
theorem single_error_on_generated_number_accepted :
    verhoeffGenerate examplePayload = some 9 ∧
    (examplePayload ++ [digitChar 9])[11]? = some '9' ∧
    verhoeffValidate ((examplePayload ++ [digitChar 9]).set 11 '1') = some true := by
  decide

/-- C3. An adjacent transposition is accepted: `125` is the payload `12` with
its generated digit 5 and is valid, and swapping its first two (distinct)
digits gives `215`, which `verhoeffValidate` also accepts. -/
theorem adjacent_transposition_accepted :
    verhoeffGenerate ['1','2'] = some 5 ∧
    verhoeffValidate ['1','2','5'] = some true ∧
    verhoeffValidate ['2','1','5'] = some true := by
  decide

/-- C5. The program's check digit differs from the published Verhoeff one: for
the payload `82351974062` the program returns 9 and the reference computation
with the published tables returns 8. -/
theorem generate_differs_from_reference :
    verhoeffGenerate examplePayload = some 9 ∧
    referenceGenerate (digitsOf examplePayload) = 8 := by
  decide

/-- C10 (as stated, refuted). It is not the case that both operations fail on
the empty string. -/
theorem empty_input_is_not_rejected :
    ¬ (verhoeffValidate [] = none ∧ verhoeffGenerate [] = none) := by
  decide

/-- C10 (amended). On the empty string no table is read and no error is
raised: `verhoeffValidate` returns true and `verhoeffGenerate` returns 0. -/
theorem empty_input_results :
    verhoeffValidate [] = some true ∧ verhoeffGenerate [] = some 0 := by
  decide

/-! ## Array reads -/

/-- A defined one-dimensional read has a non-negative index inside the array. -/
theorem read1_eq_some {a : List Int} {i v : Int} (h : read1 a i = some v) :
    0 ≤ i ∧ a[i.toNat]? = some v := by
  unfold read1 at h
  split at h
  · exact ⟨by assumption, h⟩
  · cases h

/-- A defined two-dimensional read has both indices non-negative and inside
their dimension. -/
theorem read2_eq_some {a : List (List Int)} {i j v : Int} (h : read2 a i j = some v) :
    0 ≤ i ∧ 0 ≤ j ∧ ∃ row, a[i.toNat]? = some row ∧ row[j.toNat]? = some v := by
  unfold read2 at h
  split at h
  · rename_i hi
    split at h
    · rename_i row hrow
      obtain ⟨hj, hv⟩ := read1_eq_some h
      exact ⟨hi, hj, row, hrow, hv⟩
    · cases h
  · cases h

/-- A two-dimensional read at natural-number indices. -/
theorem read2_natCast (a : List (List Int)) (m n : Nat) :
    read2 a (m : Int) (n : Int) = (a[m]?).bind (fun row => row[n]?) := by
  unfold read2 read1
  cases h : a[m]? <;> simp [h]

/-- A one-dimensional read at a natural-number index. -/
theorem read1_natCast (a : List Int) (n : Nat) : read1 a (n : Int) = a[n]? := by
  simp [read1]

/-- Entries of `d` at natural-number indices: addition modulo 10. -/
theorem d_natCast : ∀ m, m < 10 → ∀ n, n < 10 →
    (d[m]?).bind (fun row => row[n]?) = some (((m + n) % 10 : Nat) : Int) := by
  decide

/-- Every row of `d` has 10 entries, and there are 10 rows. -/
theorem d_shape : d.length = 10 ∧ ∀ row ∈ d, row.length = 10 := by
  decide

/-- Every row of `p` has 10 entries, and there are 8 rows. -/
theorem p_shape : p.length = 8 ∧ ∀ row ∈ p, row.length = 10 := by
  decide

/-- A read of `d` is defined exactly for indices in `0..9`, and its value is the
sum of the indices modulo 10. -/
theorem read2_d_iff (c x a : Int) :
    read2 d c x = some a ↔ 0 ≤ c ∧ c < 10 ∧ 0 ≤ x ∧ x < 10 ∧ a = (c + x) % 10 := by
  constructor
  · intro h
    obtain ⟨hc, hx, row, hrow, hv⟩ := read2_eq_some h
    have hm : c.toNat < 10 := by
      have := (List.getElem?_eq_some.1 hrow).1
      simpa [d_shape.1] using this
    have hn : x.toNat < 10 := by
      have := (List.getElem?_eq_some.1 hv).1
      rw [d_shape.2 row (List.getElem?_mem hrow)] at this
      exact this
    lift c to Nat using hc
    lift x to Nat using hx
    simp only [Int.toNat_ofNat] at hm hn
    rw [read2_natCast, d_natCast c hm x hn] at h
    injection h with h
    omega
  · rintro ⟨hc, hc10, hx, hx10, rfl⟩
    lift c to Nat using hc
    lift x to Nat using hx
    rw [read2_natCast, d_natCast c (by omega) x (by omega)]
    exact congrArg some (by omega)

/-- Entries of `p` at natural-number indices are defined and lie in `0..9`. -/
theorem p_natCast : ∀ r, r < 8 → ∀ n, n < 10 →
    ∃ a : Nat, a < 10 ∧ (p[r]?).bind (fun row => row[n]?) = some (a : Int) := by
  decide

/-- Each row of `p` is injective. -/
theorem p_row_injective : ∀ r, r < 8 → ∀ m, m < 10 → ∀ n, n < 10 →
    (p[r]?).bind (fun row => row[m]?) = (p[r]?).bind (fun row => row[n]?) → m = n := by
  decide

/-- A defined read of `p` has its row in `0..7`, its column in `0..9` and its
value in `0..9`. -/
theorem read2_p_bounds {r x a : Int} (h : read2 p r x = some a) :
    0 ≤ r ∧ r < 8 ∧ 0 ≤ x ∧ x < 10 ∧ 0 ≤ a ∧ a < 10 := by
  obtain ⟨hr, hx, row, hrow, hv⟩ := read2_eq_some h
  have hm : r.toNat < 8 := by
    have := (List.getElem?_eq_some.1 hrow).1
    simpa [p_shape.1] using this
  have hn : x.toNat < 10 := by
    have := (List.getElem?_eq_some.1 hv).1
    rw [p_shape.2 row (List.getElem?_mem hrow)] at this
    exact this
  lift r to Nat using hr
  lift x to Nat using hx
  simp only [Int.toNat_ofNat] at hm hn
  obtain ⟨b, hb, hpb⟩ := p_natCast r hm x hn
  rw [read2_natCast, hpb] at h
  injection h with h
  omega

/-- A read of `p` with row in `0..7` and column in `0..9` is defined. -/
theorem read2_p_defined {r x : Int} (hr : 0 ≤ r) (hr8 : r < 8) (hx : 0 ≤ x) (hx10 : x < 10) :
    ∃ a, read2 p r x = some a := by
  lift r to Nat using hr
  lift x to Nat using hx
  obtain ⟨b, _, hpb⟩ := p_natCast r (by omega) x (by omega)
  exact ⟨b, by rw [read2_natCast, hpb]⟩

/-- Two reads of one row of `p` with the same value have the same column. -/
theorem read2_p_injective {r x y a : Int} (hx : read2 p r x = some a)
    (hy : read2 p r y = some a) : x = y := by
  obtain ⟨hr, hr8, hx0, hx10, _, _⟩ := read2_p_bounds hx
  obtain ⟨_, _, hy0, hy10, _, _⟩ := read2_p_bounds hy
  lift r to Nat using hr
  lift x to Nat using hx0
  lift y to Nat using hy0
  rw [read2_natCast] at hx hy
  have := p_row_injective r (by omega) x (by omega) y (by omega) (hx.trans hy.symm)
  omega

/-! ## Digit characters -/

/-- A digit character converts to an `int` in `0..9`. -/
theorem toDigit_bounds {ch : Char} (h : IsDigit ch) : 0 ≤ toDigit ch ∧ toDigit ch < 10 := by
  have h0 : ('0' : Char).toNat = 48 := rfl
  unfold IsDigit at h
  unfold toDigit
  rw [h0]
  split <;> omega

/-- A digit character converts to the digit it stands for. -/
theorem toDigit_of_isDigit {ch : Char} (h : IsDigit ch) :
    toDigit ch = ((ch.toNat - 48 : Nat) : Int) := by
  have h0 : ('0' : Char).toNat = 48 := rfl
  unfold IsDigit at h
  unfold toDigit
  rw [h0]
  split <;> omega

/-- A character that converts to an `int` in `0..9` is a digit character. -/
theorem isDigit_of_toDigit {ch : Char} (h0 : 0 ≤ toDigit ch) (h10 : toDigit ch < 10) :
    IsDigit ch := by
  have h48 : ('0' : Char).toNat = 48 := rfl
  unfold toDigit at h0 h10
  rw [h48] at h0 h10
  unfold IsDigit
  split at h0 <;> split at h10 <;> omega

/-- The conversion `ch - '0'` is injective. -/
theorem toDigit_injective {v w : Char} (h : toDigit v = toDigit w) : v = w := by
  unfold toDigit at h
  have hn : v.toNat = w.toNat := by
    split at h <;> split at h <;> omega
  have := congrArg Char.ofNat hn
  simpa using this

/-! ## The accumulation of the loops -/

/-- One iteration of the accumulation: it is defined exactly when
the character read, the two table reads and the rest of the loop are. -/
theorem accumulate_succ_eq_some {num : List Char} {i : Nat} {pos c r : Int} :
    accumulate num (i + 1) pos c = some r ↔
      ∃ ch x c1, num[i]? = some ch ∧ read2 p (pos % 8) (toDigit ch) = some x ∧
        read2 d c x = some c1 ∧ accumulate num i (pos + 1) c1 = some r := by
  rw [accumulate]
  cases h1 : num[i]? with
  | none => simp
  | some ch =>
    cases h2 : read2 p (pos % 8) (toDigit ch) with
    | none => simp [h2]
    | some x =>
      cases h3 : read2 d c x with
      | none => simp [h2, h3]
      | some c1 => simp [h2, h3]

/-- The loop entered with `i = k - 1` reads only the characters at indices
below `k`: overwriting a character at an index `j ≥ k` does not change it. -/
theorem accumulate_set_of_le (num : List Char) (j : Nat) (v : Char) :
    ∀ (k : Nat) (pos c : Int), k ≤ j →
      accumulate (num.set j v) k pos c = accumulate num k pos c := by
  intro k
  induction k with
  | zero => intro pos c _; rfl
  | succ i ih =>
    intro pos c hk
    have hji : j ≠ i := by omega
    simp only [accumulate, List.getElem?_set_ne hji]
    simp only [fun pos c => ih pos c (Nat.le_of_succ_le hk)]

/-- Two runs of the loop over the same characters from two different
accumulator values in `0..9` end in different values. -/
theorem accumulate_ne_of_ne (num : List Char) :
    ∀ (k : Nat) (pos c c2 r : Int), 0 ≤ c2 → c2 < 10 → c2 ≠ c →
      accumulate num k pos c = some r →
      ∃ r2, accumulate num k pos c2 = some r2 ∧ r2 ≠ r := by
  intro k
  induction k with
  | zero =>
    intro pos c c2 r _ _ hne h
    simp only [accumulate, Option.some.injEq] at h
    exact ⟨c2, rfl, by rw [← h]; exact hne⟩
  | succ i ih =>
    intro pos c c2 r h0 h10 hne h
    obtain ⟨ch, x, c1, h1, h2, h3, h4⟩ := accumulate_succ_eq_some.1 h
    obtain ⟨hc, hc10, hx, hx10, hc1⟩ := (read2_d_iff _ _ _).1 h3
    have h3b : read2 d c2 x = some ((c2 + x) % 10) :=
      (read2_d_iff _ _ _).2 ⟨h0, h10, hx, hx10, rfl⟩
    obtain ⟨r2, hr2, hne2⟩ :=
      ih (pos + 1) c1 ((c2 + x) % 10) r (by omega) (by omega) (by omega) h4
    exact ⟨r2, accumulate_succ_eq_some.2 ⟨ch, x, _, h1, h2, h3b, hr2⟩, hne2⟩

/-- Overwriting one character that the loop reads by a different digit
character changes the value the loop ends in. -/
theorem accumulate_set_ne (num : List Char) (j : Nat) (v : Char) (hj : j < num.length)
    (hv : IsDigit v) (hne : v ≠ num[j]) :
    ∀ (k : Nat) (pos c r : Int), j < k → accumulate num k pos c = some r →
      ∃ r2, accumulate (num.set j v) k pos c = some r2 ∧ r2 ≠ r := by
  intro k
  induction k with
  | zero => intro pos c r hk; omega
  | succ i ih =>
    intro pos c r hk h
    obtain ⟨ch, x, c1, h1, h2, h3, h4⟩ := accumulate_succ_eq_some.1 h
    by_cases hji : j = i
    · subst hji
      have hch : num[j] = ch := by
        obtain ⟨_, e⟩ := List.getElem?_eq_some.1 h1
        exact e
      obtain ⟨hr, hr8, _, _, hx0, hx10⟩ := read2_p_bounds h2
      obtain ⟨hd0, hd10⟩ := toDigit_bounds hv
      obtain ⟨y, hy⟩ := read2_p_defined hr hr8 hd0 hd10
      obtain ⟨_, _, _, _, hy0, hy10⟩ := read2_p_bounds hy
      have hyx : y ≠ x := by
        intro e
        rw [e] at hy
        exact hne ((toDigit_injective (read2_p_injective hy h2)).trans hch.symm)
      obtain ⟨hc, hc10, _, _, hc1⟩ := (read2_d_iff _ _ _).1 h3
      have h3b : read2 d c y = some ((c + y) % 10) :=
        (read2_d_iff _ _ _).2 ⟨hc, hc10, hy0, hy10, rfl⟩
      obtain ⟨r2, hr2, hne2⟩ :=
        accumulate_ne_of_ne num j (pos + 1) c1 ((c + y) % 10) r
          (by omega) (by omega) (by omega) h4
      refine ⟨r2, accumulate_succ_eq_some.2 ⟨v, y, _, ?_, hy, h3b, ?_⟩, hne2⟩
      · exact List.getElem?_set_self hj
      · rw [accumulate_set_of_le num j v j (pos + 1) _ (Nat.le_refl j)]
        exact hr2
    · obtain ⟨r2, hr2, hne2⟩ := ih (pos + 1) c1 r (by omega) h4
      refine ⟨r2, accumulate_succ_eq_some.2 ⟨ch, x, c1, ?_, h2, h3, hr2⟩, hne2⟩
      rw [List.getElem?_set_ne hji]
      exact h1

/-! ## More about the accumulation -/

/-- The loop entered with `i = k - 1` on a string of at least `k` characters is
not changed by characters appended to the string. -/
theorem accumulate_append (s t : List Char) :
    ∀ (k : Nat) (pos c : Int), k ≤ s.length →
      accumulate (s ++ t) k pos c = accumulate s k pos c := by
  intro k
  induction k with
  | zero => intro pos c _; rfl
  | succ i ih =>
    intro pos c hk
    have hi : i < s.length := by omega
    simp only [accumulate, List.getElem?_append_left hi]
    simp only [fun pos c => ih pos c (Nat.le_of_succ_le hk)]

/-- One iteration of the accumulation on a digit character, from
an accumulator in `0..9`: both table reads are inside their table and the new
accumulator is again in `0..9`. -/
theorem accumulate_step_safe (num : List Char) (hd : ∀ ch ∈ num, IsDigit ch)
    (i : Nat) (pos c : Int) (hi : i < num.length) (_hpos : 0 ≤ pos) (hc : 0 ≤ c)
    (hc10 : c < 10) :
    ∃ ch x c1, num[i]? = some ch ∧ read2 p (pos % 8) (toDigit ch) = some x ∧
      read2 d c x = some c1 ∧ 0 ≤ c1 ∧ c1 < 10 ∧
      accumulate num (i + 1) pos c = accumulate num i (pos + 1) c1 := by
  have h1 : num[i]? = some num[i] := List.getElem?_eq_getElem hi
  obtain ⟨hd0, hd10⟩ := toDigit_bounds (hd num[i] (List.getElem_mem hi))
  obtain ⟨x, hx⟩ := read2_p_defined (r := pos % 8) (by omega) (by omega) hd0 hd10
  obtain ⟨_, _, _, _, hx0, hx10⟩ := read2_p_bounds hx
  have h3 : read2 d c x = some ((c + x) % 10) :=
    (read2_d_iff _ _ _).2 ⟨hc, hc10, hx0, hx10, rfl⟩
  refine ⟨num[i], x, (c + x) % 10, h1, hx, h3, by omega, by omega, ?_⟩
  rw [accumulate]
  simp only [h1, hx, h3]

/-- On a string of digit characters the accumulation, entered
anywhere with an accumulator in `0..9`, runs to its end with every read
defined and ends with an accumulator in `0..9`. -/
theorem accumulate_defined (num : List Char) (hd : ∀ ch ∈ num, IsDigit ch) :
    ∀ (k : Nat) (pos c : Int), k ≤ num.length → 0 ≤ pos → 0 ≤ c → c < 10 →
      ∃ r, accumulate num k pos c = some r ∧ 0 ≤ r ∧ r < 10 := by
  intro k
  induction k with
  | zero => intro pos c _ _ hc hc10; exact ⟨c, rfl, hc, hc10⟩
  | succ i ih =>
    intro pos c hk hpos hc hc10
    obtain ⟨ch, x, c1, _, _, _, h0, h10, hstep⟩ :=
      accumulate_step_safe num hd i pos c (by omega) hpos hc hc10
    rw [hstep]
    exact ih (pos + 1) c1 (by omega) (by omega) h0 h10

/-- Entering the loop with another accumulator in `0..9` shifts the final
accumulator by the difference, modulo 10. -/
theorem accumulate_shift (num : List Char) :
    ∀ (k : Nat) (pos c c2 r : Int), 0 ≤ c2 → c2 < 10 →
      accumulate num k pos c = some r → 0 ≤ c → c < 10 →
      accumulate num k pos c2 = some ((r + (c2 - c)) % 10) := by
  intro k
  induction k with
  | zero =>
    intro pos c c2 r h0 h10 h _ _
    simp only [accumulate, Option.some.injEq] at h ⊢
    omega
  | succ i ih =>
    intro pos c c2 r h0 h10 h hc0 hc10
    obtain ⟨ch, x, c1, h1, h2, h3, h4⟩ := accumulate_succ_eq_some.1 h
    obtain ⟨_, _, hx, hx10, hc1⟩ := (read2_d_iff _ _ _).1 h3
    have h3b : read2 d c2 x = some ((c2 + x) % 10) :=
      (read2_d_iff _ _ _).2 ⟨h0, h10, hx, hx10, rfl⟩
    have hrec := ih (pos + 1) c1 ((c2 + x) % 10) r (by omega) (by omega) h4
      (by omega) (by omega)
    refine accumulate_succ_eq_some.2 ⟨ch, x, _, h1, h2, h3b, ?_⟩
    rw [hrec]
    exact congrArg some (by omega)

/-- A character of the string that is not a digit makes the accumulation read
outside the table `p`: it has no defined result. -/
theorem accumulate_none_of_not_digit (num : List Char) (j : Nat) (hj : j < num.length)
    (hnd : ¬ IsDigit num[j]) :
    ∀ (k : Nat) (pos c : Int), j < k → accumulate num k pos c = none := by
  intro k
  induction k with
  | zero => intro pos c hk; omega
  | succ i ih =>
    intro pos c hk
    cases hres : accumulate num (i + 1) pos c with
    | none => rfl
    | some r =>
      exfalso
      obtain ⟨ch, x, c1, h1, h2, h3, h4⟩ := accumulate_succ_eq_some.1 hres
      by_cases hji : j = i
      · subst hji
        have hch : num[j] = ch := by
          obtain ⟨_, e⟩ := List.getElem?_eq_some.1 h1
          exact e
        obtain ⟨_, _, hx0, hx10, _, _⟩ := read2_p_bounds h2
        rw [hch] at hnd
        exact hnd (isDigit_of_toDigit hx0 hx10)
      · rw [ih (pos + 1) c1 (by omega)] at h4
        cases h4
/-! ## The loops and the stated recurrences -/

/-- Entries of `p` as read by the program and as used in the recurrences. -/
theorem p_entry : ∀ r, r < 8 → ∀ n, n < 10 →
    (p[r]?).bind (fun row => row[n]?) = some ((entry2 p r n : Nat) : Int) ∧
      entry2 p r n < 10 := by
  decide

/-- Entries of `d` as used in the recurrences: addition modulo 10. -/
theorem d_entry : ∀ m, m < 10 → ∀ n, n < 10 → entry2 d m n = (m + n) % 10 := by
  decide

/-- The digits of a string of digit characters are in `0..9`. -/
theorem digitsOf_lt (num : List Char) (hd : ∀ ch ∈ num, IsDigit ch) :
    ∀ x ∈ digitsOf num, x < 10 := by
  intro x hx
  unfold digitsOf at hx
  obtain ⟨ch, hch, rfl⟩ := List.mem_map.1 hx
  have := hd ch hch
  unfold IsDigit at this
  omega

/-- The digit at a position from the right is in `0..9` when all digits are. -/
theorem digitFromRight_lt (digits : List Nat) (h : ∀ x ∈ digits, x < 10) (k : Nat) :
    digitFromRight digits k < 10 := by
  unfold digitFromRight
  rw [List.getD_eq_getElem?_getD]
  cases hx : digits.reverse[k]? with
  | none => simp
  | some x =>
    have : x ∈ digits := List.mem_reverse.1 (List.getElem?_mem hx)
    simpa using h x this

/-- The digit at position `k` from the right of a string is the one its
character at index `length - 1 - k` stands for. -/
theorem digitFromRight_digitsOf (num : List Char) (i k : Nat) (hi : i < num.length)
    (hk : i + k + 1 = num.length) :
    digitFromRight (digitsOf num) k = num[i].toNat - 48 := by
  unfold digitFromRight digitsOf
  rw [List.getD_eq_getElem?_getD, List.getElem?_reverse (by simp; omega)]
  have hidx : (List.map (fun ch => ch.toNat - 48) num).length - 1 - k = i := by
    simp; omega
  rw [hidx, List.getElem?_map, List.getElem?_eq_getElem hi]
  rfl

/-- The accumulator of the recurrences is in `0..9`. -/
theorem shiftedRecurrence_lt (off : Nat) (digits : List Nat) (h : ∀ x ∈ digits, x < 10) :
    ∀ k, shiftedRecurrence off digits k < 10 := by
  intro k
  induction k with
  | zero => simp [shiftedRecurrence]
  | succ k ih =>
    rw [shiftedRecurrence, d_entry _ ih _ (p_entry _ (Nat.mod_lt _ (by decide)) _
      (digitFromRight_lt digits h k)).2]
    omega

/-- The recurrence stated for validation is the shifted one with offset 0. -/
theorem validateRecurrence_eq (digits : List Nat) :
    ∀ k, validateRecurrence digits k = shiftedRecurrence 0 digits k := by
  intro k
  induction k with
  | zero => rfl
  | succ k ih => simp only [validateRecurrence, shiftedRecurrence, ih, Nat.add_zero]

/-- The recurrence stated for generation is the shifted one with offset 1. -/
theorem generateRecurrence_eq (digits : List Nat) :
    ∀ k, generateRecurrence digits k = shiftedRecurrence 1 digits k := by
  intro k
  induction k with
  | zero => rfl
  | succ k ih => simp only [generateRecurrence, shiftedRecurrence, ih]

/-- The accumulation entered after `j` digits with the `j`-th accumulator of the
recurrence ends with its last accumulator. -/
theorem accumulate_eq_recurrence (num : List Char) (hd : ∀ ch ∈ num, IsDigit ch)
    (off : Nat) :
    ∀ (k j : Nat), k + j = num.length →
      accumulate num k ((j + off : Nat) : Int)
          ((shiftedRecurrence off (digitsOf num) j : Nat) : Int) =
        some ((shiftedRecurrence off (digitsOf num) num.length : Nat) : Int) := by
  intro k
  induction k with
  | zero =>
    intro j hj
    have : j = num.length := by omega
    subst this
    rfl
  | succ i ih =>
    intro j hj
    have hi : i < num.length := by omega
    have hlt := digitsOf_lt num hd
    have hdig := hd num[i] (List.getElem_mem hi)
    have hx : digitFromRight (digitsOf num) j = num[i].toNat - 48 :=
      digitFromRight_digitsOf num i j hi (by omega)
    have hxl : num[i].toNat - 48 < 10 := by rw [← hx]; exact digitFromRight_lt _ hlt j
    have hpe := p_entry ((j + off) % 8) (Nat.mod_lt _ (by decide)) _ hxl
    have hrow : (((j + off : Nat) : Int) % 8) = (((j + off) % 8 : Nat) : Int) := by omega
    have htd : toDigit num[i] = ((num[i].toNat - 48 : Nat) : Int) := toDigit_of_isDigit hdig
    have h2 : read2 p (((j + off : Nat) : Int) % 8) (toDigit num[i]) =
        some ((entry2 p ((j + off) % 8) (num[i].toNat - 48) : Nat) : Int) := by
      rw [hrow, htd, read2_natCast]
      exact hpe.1
    have hc := shiftedRecurrence_lt off (digitsOf num) hlt j
    have h3 : read2 d ((shiftedRecurrence off (digitsOf num) j : Nat) : Int)
        ((entry2 p ((j + off) % 8) (num[i].toNat - 48) : Nat) : Int) =
        some ((shiftedRecurrence off (digitsOf num) (j + 1) : Nat) : Int) := by
      rw [(read2_d_iff _ _ _)]
      have hnext : shiftedRecurrence off (digitsOf num) (j + 1) =
          (shiftedRecurrence off (digitsOf num) j +
            entry2 p ((j + off) % 8) (num[i].toNat - 48)) % 10 := by
        rw [shiftedRecurrence, hx, d_entry _ hc _ hpe.2]
      rw [hnext]
      have := hpe.2
      omega
    have hnextpos : (((j + off : Nat) : Int) + 1) = (((j + 1) + off : Nat) : Int) := by
      omega
    rw [accumulate]
    simp only [List.getElem?_eq_getElem hi, h2, h3, hnextpos]
    exact ih (j + 1) (by omega)

/-- With the table `d` of the program the accumulator of the validation
recurrence is the sum of the permuted digits modulo 10. -/
theorem validateRecurrence_eq_sum (digits : List Nat) (h : ∀ x ∈ digits, x < 10) :
    ∀ k, validateRecurrence digits k = permutedDigitSum digits k % 10 := by
  intro k
  induction k with
  | zero => rfl
  | succ k ih =>
    have hc : validateRecurrence digits k < 10 := by
      rw [validateRecurrence_eq]; exact shiftedRecurrence_lt 0 digits h k
    have hp := (p_entry (k % 8) (Nat.mod_lt _ (by decide)) _ (digitFromRight_lt digits h k)).2
    rw [validateRecurrence, permutedDigitSum, d_entry _ hc _ hp, ih]
    omega
/-! ## The loops of the program and the accumulation -/

/-- For a size that fits an `int` the loop index starts at the last character:
the number of iterations is the size. -/
theorem loopStart_of_le (n : Nat) (h : (n : Int) ≤ INT_MAX) : (loopStart n + 1).toNat = n := by
  unfold INT_MAX at h
  unfold loopStart toInt
  split <;> omega

/-- The loop of `verhoeffValidate` is the accumulation as long as `pos` stays
within `int`. -/
theorem validateLoop_eq_accumulate (num : List Char) :
    ∀ (k : Nat) (pos c : Int), pos + k ≤ INT_MAX →
      validateLoop num k pos c = accumulate num k pos c := by
  intro k
  induction k with
  | zero => intro pos c _; rfl
  | succ i ih =>
    intro pos c h
    have h1 : pos + 1 ≤ INT_MAX := by push_cast at h; omega
    have h2 : pos + 1 + i ≤ INT_MAX := by push_cast at h; omega
    simp only [validateLoop, accumulate, h1, if_true]
    simp only [fun c1 => ih (pos + 1) c1 h2]

/-- The loop of `verhoeffGenerate` is the accumulation entered one position
further, as long as `pos + 1` stays within `int`. -/
theorem generateLoop_eq_accumulate (num : List Char) :
    ∀ (k : Nat) (pos c : Int), pos + k ≤ INT_MAX →
      generateLoop num k pos c = accumulate num k (pos + 1) c := by
  intro k
  induction k with
  | zero => intro pos c _; rfl
  | succ i ih =>
    intro pos c h
    have h1 : pos + 1 ≤ INT_MAX := by push_cast at h; omega
    have h2 : pos + 1 + i ≤ INT_MAX := by push_cast at h; omega
    simp only [generateLoop, accumulate, h1, if_true]
    simp only [fun c1 => ih (pos + 1) c1 h2]

/-- On a string whose size fits an `int`, `verhoeffValidate` is the
accumulation over the whole string from `pos = 0`. -/
theorem verhoeffValidate_eq_accumulate (num : List Char) (hlen : (num.length : Int) ≤ INT_MAX) :
    verhoeffValidate num = (accumulate num num.length 0 0).map (fun c => decide (c = 0)) := by
  unfold verhoeffValidate
  rw [loopStart_of_le _ hlen, validateLoop_eq_accumulate num num.length 0 0 (by omega)]

/-- On a string whose size fits an `int`, `verhoeffGenerate` is `inv` of the
accumulation over the whole string from `pos = 1`. -/
theorem verhoeffGenerate_eq_accumulate (num : List Char) (hlen : (num.length : Int) ≤ INT_MAX) :
    verhoeffGenerate num = (accumulate num num.length 1 0).bind (read1 inv) := by
  unfold verhoeffGenerate
  rw [loopStart_of_le _ hlen, generateLoop_eq_accumulate num num.length 0 0 (by omega)]
  rfl

/-- When the loop index starts negative the loop of `verhoeffValidate` is
skipped and the function returns true. -/
theorem verhoeffValidate_of_skip (num : List Char) (h : (loopStart num.length + 1).toNat = 0) :
    verhoeffValidate num = some true := by
  unfold verhoeffValidate
  rw [h]
  rfl

/-- When the loop index starts negative the loop of `verhoeffGenerate` is
skipped and the function returns `inv[0]`, which is 0. -/
theorem verhoeffGenerate_of_skip (num : List Char) (h : (loopStart num.length + 1).toNat = 0) :
    verhoeffGenerate num = some 0 := by
  unfold verhoeffGenerate
  rw [h]
  rfl

/-- A run of the loop of `verhoeffGenerate` that would take `pos + 1` beyond
`INT_MAX` has no defined result. -/
theorem generateLoop_none_of_overflow (num : List Char) :
    ∀ (k : Nat) (pos c : Int), 0 < k → INT_MAX < pos + k → generateLoop num k pos c = none := by
  intro k
  induction k with
  | zero => intro pos c hk; omega
  | succ i ih =>
    intro pos c _ h
    rw [generateLoop]
    cases h1 : num[i]? with
    | none => rfl
    | some ch =>
      by_cases hp : pos + 1 ≤ INT_MAX
      · have hi : 0 < i := by
          rcases Nat.eq_zero_or_pos i with h0 | h0
          · subst h0; push_cast at h; omega
          · exact h0
        simp only [hp, if_true]
        cases h2 : read2 p ((pos + 1) % 8) (toDigit ch) with
        | none => rfl
        | some x =>
          dsimp only
          cases h3 : read2 d c x with
          | none => rfl
          | some c1 =>
            dsimp only
            exact ih (pos + 1) c1 hi (by push_cast at h; omega)
      · simp only [hp, if_false]

/-- The sizes used below at which the `int` loop index leaves the string:
at `2^31 + 1` characters the loop is skipped, at `2^31` characters it runs
`2^31` times. -/
theorem loopStart_values :
    (loopStart 2147483649 + 1).toNat = 0 ∧ (loopStart 2147483648 + 1).toNat = 2147483648 := by
  decide
/-! ## Appending a check digit -/

/-- Row `0` of `p` is the identity on `0..9`. -/
theorem read2_p_row_zero {x : Int} (hx : 0 ≤ x) (hx10 : x < 10) : read2 p 0 x = some x := by
  have key : ∀ n : Nat, n < 10 → (p[0]?).bind (fun row => row[n]?) = some (n : Int) := by decide
  lift x to Nat using hx
  have := read2_natCast p 0 x
  simp only [Nat.cast_zero] at this
  rw [this]
  exact key x (by omega)

/-- A read of `inv` with an index in `0..9` is defined and in `0..9`; it is `0`
only at index `0`, and it is `0` or `5` exactly when the index is. -/
theorem read1_inv_defined {c : Int} (hc : 0 ≤ c) (hc10 : c < 10) :
    ∃ g, read1 inv c = some g ∧ 0 ≤ g ∧ g < 10 ∧ (g = 0 ↔ c = 0) ∧
      ((c + g) % 10 = 0 ↔ g = 0 ∨ g = 5) := by
  have key : ∀ n : Nat, n < 10 → ∃ g : Nat, g < 10 ∧ inv[n]? = some (g : Int) ∧ (g = 0 ↔ n = 0) ∧
      ((n + g) % 10 = 0 ↔ g = 0 ∨ g = 5) := by decide
  lift c to Nat using hc
  obtain ⟨g, hg10, hg, hz, hs⟩ := key c (by omega)
  refine ⟨g, by rw [read1_natCast, hg], by omega, by omega, by omega, by omega⟩

/-- The character printed for a value in `0..9` is a digit character that
converts back to the value. -/
theorem toDigit_digitChar {k : Int} (hk : 0 ≤ k) (hk10 : k < 10) :
    IsDigit (digitChar k) ∧ toDigit (digitChar k) = k := by
  have key : ∀ n : Nat, n < 10 →
      IsDigit (digitChar (n : Int)) ∧ toDigit (digitChar (n : Int)) = (n : Int) := by decide
  lift k to Nat using hk
  exact key k (by omega)

/-- The first iteration of the accumulation on a string that ends in a digit
character: it leaves the value of that digit in the accumulator and continues
on the rest one position further. -/
theorem accumulate_append_digit (s : List Char) (ch : Char) (hch : IsDigit ch) :
    accumulate (s ++ [ch]) (s ++ [ch]).length 0 0 = accumulate s s.length 1 (toDigit ch) := by
  obtain ⟨h0, h10⟩ := toDigit_bounds hch
  have hlen : (s ++ [ch]).length = s.length + 1 := by simp
  have h1 : (s ++ [ch])[s.length]? = some ch := by simp
  have h2 : read2 p (0 % 8) (toDigit ch) = some (toDigit ch) := read2_p_row_zero h0 h10
  have h3 : read2 d 0 (toDigit ch) = some (toDigit ch) :=
    (read2_d_iff _ _ _).2 ⟨by omega, by omega, h0, h10, by omega⟩
  rw [hlen, accumulate]
  simp only [h1, h2, h3]
  exact accumulate_append s [ch] s.length (0 + 1) (toDigit ch) (Nat.le_refl _)

/-- On a string of digit characters followed by one more digit character, the
accumulation from `pos = 0` over the longer string ends in the accumulator of
the accumulation from `pos = 1` over the string plus the last digit, modulo
10. -/
theorem accumulate_append_digit_eq (s : List Char) (hd : ∀ ch ∈ s, IsDigit ch) :
    ∃ c, accumulate s s.length 1 0 = some c ∧ 0 ≤ c ∧ c < 10 ∧
      ∀ ch, IsDigit ch →
        accumulate (s ++ [ch]) (s ++ [ch]).length 0 0 = some ((c + toDigit ch) % 10) := by
  obtain ⟨c, hc, hc0, hc10⟩ :=
    accumulate_defined s hd s.length 1 0 (Nat.le_refl _) (by omega) (by omega) (by omega)
  refine ⟨c, hc, hc0, hc10, ?_⟩
  intro ch hch
  obtain ⟨h0, h10⟩ := toDigit_bounds hch
  rw [accumulate_append_digit s ch hch,
    accumulate_shift s s.length 1 0 (toDigit ch) c h0 h10 hc (by omega) (by omega)]
  exact congrArg some (by omega)

/-- A string whose size fits an `int` and that has a character that is not a
digit: both functions read outside the table `p` and have no defined result. -/
theorem undefined_of_not_digit (num : List Char) (hlen : (num.length : Int) ≤ INT_MAX)
    (j : Nat) (hj : j < num.length) (hnd : ¬ IsDigit num[j]) :
    verhoeffValidate num = none ∧ verhoeffGenerate num = none := by
  rw [verhoeffValidate_eq_accumulate num hlen, verhoeffGenerate_eq_accumulate num hlen,
    accumulate_none_of_not_digit num j hj hnd num.length 0 0 hj,
    accumulate_none_of_not_digit num j hj hnd num.length 1 0 hj]
  exact ⟨rfl, rfl⟩
/-! ## Strings longer than `INT_MAX`

Strings of one repeated digit, of `2^31` and `2^31 + 1` characters, on which
the `int` loop index does not reach the last character. -/

/-- Every character of a string of one repeated digit character is a digit
character. -/
theorem isDigit_of_mem_replicate {n : Nat} {x ch : Char} (hx : IsDigit x)
    (h : ch ∈ List.replicate n x) : IsDigit ch := by
  rw [List.eq_of_mem_replicate h]
  exact hx

/-- The digit at any position of a number of one repeated digit. -/
theorem digitFromRight_replicate (n x k : Nat) (hk : k < n) :
    digitFromRight (List.replicate n x) k = x := by
  unfold digitFromRight
  rw [List.reverse_replicate, List.getD_eq_getElem?_getD, List.getElem?_replicate, if_pos hk]
  rfl

/-- The digits of a string of threes. -/
theorem digitsOf_replicate_three (n : Nat) :
    digitsOf (List.replicate n '3') = List.replicate n 3 := by
  unfold digitsOf
  rw [List.map_replicate]
  rfl

/-- Column 3 of `p` alternates between 3 and 6. -/
theorem p_column_three : ∀ r, r < 8 → entry2 p r 3 = if r % 2 = 0 then 3 else 6 := by
  decide

/-- The sum of the permuted digits of a number of threes. -/
theorem permutedDigitSum_threes (n : Nat) :
    ∀ k, k ≤ n → permutedDigitSum (List.replicate n 3) k = 9 * (k / 2) + 3 * (k % 2) := by
  intro k
  induction k with
  | zero => intro _; rfl
  | succ k ih =>
    intro hk
    rw [permutedDigitSum, ih (by omega), digitFromRight_replicate n 3 k (by omega),
      p_column_three (k % 8) (Nat.mod_lt _ (by decide))]
    split <;> omega

/-- The accumulator of the generation recurrence of a number of threes. -/
theorem generateRecurrence_threes (n : Nat) :
    ∀ k, k ≤ n →
      generateRecurrence (List.replicate n 3) k = (9 * (k / 2) + 6 * (k % 2)) % 10 := by
  intro k
  induction k with
  | zero => intro _; rfl
  | succ k ih =>
    intro hk
    have hcol := p_column_three ((k + 1) % 8) (Nat.mod_lt _ (by decide))
    have hlt : entry2 p ((k + 1) % 8) 3 < 10 := by
      rw [hcol]; split <;> omega
    rw [generateRecurrence, ih (by omega), digitFromRight_replicate n 3 k (by omega),
      d_entry _ (Nat.mod_lt _ (by decide)) _ hlt, hcol]
    split <;> omega

/-- A string of `2^31 + 1` characters: both loops are skipped. -/
theorem skipped_at_two_pow_31_add_one (num : List Char) (h : num.length = 2147483649) :
    verhoeffValidate num = some true ∧ verhoeffGenerate num = some 0 := by
  have hs : (loopStart num.length + 1).toNat = 0 := by
    rw [h]; exact loopStart_values.1
  exact ⟨verhoeffValidate_of_skip num hs, verhoeffGenerate_of_skip num hs⟩

/-- A string of `2^31` characters: the last `pos + 1` of `verhoeffGenerate`
leaves the range of `int`, and the function has no defined result. -/
theorem generate_overflows_at_two_pow_31 (num : List Char) (h : num.length = 2147483648) :
    verhoeffGenerate num = none := by
  unfold verhoeffGenerate
  rw [h, loopStart_values.2,
    generateLoop_none_of_overflow num 2147483648 0 0 (by decide) (by unfold INT_MAX; omega)]
  rfl
/-! ## Detection of single-digit errors -/

/-- C4 (as stated, refuted). On a string of `2^31 + 1` ones the loop index
starts at `-2^31`, the loop is skipped and `verhoeffValidate` returns true; it
still returns true, not false, after the first digit is replaced by 2. -/
theorem single_digit_error_undetected_beyond_int_max :
    verhoeffValidate (List.replicate 2147483649 '1') = some true ∧
    (List.replicate 2147483649 '1')[0]? = some '1' ∧ IsDigit '2' ∧
    verhoeffValidate ((List.replicate 2147483649 '1').set 0 '2') = some true := by
  refine ⟨(skipped_at_two_pow_31_add_one _ (List.length_replicate _ _)).1, ?_, by decide,
    (skipped_at_two_pow_31_add_one _ ?_).1⟩
  · rw [List.getElem?_replicate, if_pos (by decide)]
  · rw [List.length_set, List.length_replicate]

/-- C4 (amended). Single-digit-error detection on accepted numbers of at most
`INT_MAX` characters: when `verhoeffValidate` returns true for such a string,
replacing the character at any one index by a different digit character makes
it return false. -/
theorem single_digit_error_is_detected (t : List Char)
    (hlen : (t.length : Int) ≤ INT_MAX)
    (hvalid : verhoeffValidate t = some true) (i : Nat) (hi : i < t.length) (v : Char)
    (hv : IsDigit v) (hne : v ≠ t[i]) :
    verhoeffValidate (t.set i v) = some false := by
  have hlen2 : ((t.set i v).length : Int) ≤ INT_MAX := by rw [List.length_set]; exact hlen
  rw [verhoeffValidate_eq_accumulate t hlen] at hvalid
  rw [verhoeffValidate_eq_accumulate _ hlen2]
  cases hr : accumulate t t.length 0 0 with
  | none => rw [hr] at hvalid; cases hvalid
  | some r =>
    rw [hr] at hvalid
    have hr0 : r = 0 := by simpa using hvalid
    obtain ⟨r2, hr2, hne2⟩ := accumulate_set_ne t i v hi hv hne t.length 0 0 r hi hr
    rw [List.length_set, hr2]
    simp only [Option.map_some', Option.some.injEq, decide_eq_false_iff_not]
    rw [hr0] at hne2
    exact hne2

/-- Witness for C4: `125` is accepted, and with its first digit replaced by 3
it is rejected. -/
theorem single_digit_error_is_detected_witness :
    ((['1','2','5'].length : Nat) : Int) ≤ INT_MAX ∧
    verhoeffValidate ['1','2','5'] = some true ∧ IsDigit '3' ∧
    verhoeffValidate (['1','2','5'].set 0 '3') = some false :=
  ⟨by decide, by decide, by decide,
    single_digit_error_is_detected ['1','2','5'] (by decide) (by decide) 0 (by decide) '3'
      (by decide) (by decide)⟩

/-! ## Inputs that are not digit strings -/

/-- C11. A character that is not a digit is not rejected: for the string `a`
the conversion `num[i] - '0'` gives 49, the first iteration of either loop
reads row 0 (respectively row 1) of `p` at column 49, outside the table, and
neither function has a defined result. -/
theorem non_digit_is_read_outside_table :
    toDigit 'a' = 49 ∧ read2 p (0 % 8) (toDigit 'a') = none ∧
    read2 p ((0 + 1) % 8) (toDigit 'a') = none ∧
    verhoeffValidate ['a'] = none ∧ verhoeffGenerate ['a'] = none := by
  decide

/-! ## Digit strings: safety of the reads -/

/-- C13 (as stated, refuted). On the digit string of `2^31 + 1` threes the loop
of `verhoeffValidate` is skipped and the function returns true, while the
accumulator `c_n` of the stated recurrence is 9, not 0. -/
theorem validate_ignores_recurrence_beyond_int_max :
    (∀ ch ∈ List.replicate 2147483649 '3', IsDigit ch) ∧
    verhoeffValidate (List.replicate 2147483649 '3') = some true ∧
    validateRecurrence (digitsOf (List.replicate 2147483649 '3'))
      (List.replicate 2147483649 '3').length = 9 := by
  refine ⟨fun ch h => isDigit_of_mem_replicate (by decide) h,
    (skipped_at_two_pow_31_add_one _ (List.length_replicate _ _)).1, ?_⟩
  rw [List.length_replicate, digitsOf_replicate_three,
    validateRecurrence_eq_sum _ (fun x hx => by rw [List.eq_of_mem_replicate hx]; decide),
    permutedDigitSum_threes _ _ (Nat.le_refl _)]

/-- C13 (amended). On a string of digit characters of at most `INT_MAX`
characters `verhoeffValidate` returns true exactly when the accumulator `c_n`
of the recurrence `c_0 = 0`, `c_{k+1} = d[c_k][p[k mod 8][x_k]]` over the
digits from the right is `0`. -/
theorem validate_implements_recurrence (num : List Char)
    (hlen : (num.length : Int) ≤ INT_MAX) (hd : ∀ ch ∈ num, IsDigit ch) :
    verhoeffValidate num =
      some (decide (validateRecurrence (digitsOf num) num.length = 0)) := by
  have h := accumulate_eq_recurrence num hd 0 num.length 0 (by omega)
  simp only [shiftedRecurrence, Nat.add_zero, Nat.cast_zero] at h
  rw [verhoeffValidate_eq_accumulate num hlen, h, validateRecurrence_eq]
  simp

/-- Witness for C13: the digit string `125`, whose recurrence ends in `0`. -/
theorem validate_implements_recurrence_witness :
    ((['1','2','5'].length : Nat) : Int) ≤ INT_MAX ∧ (∀ ch ∈ ['1','2','5'], IsDigit ch) ∧
    validateRecurrence (digitsOf ['1','2','5']) ['1','2','5'].length = 0 ∧
    verhoeffValidate ['1','2','5'] =
      some (decide (validateRecurrence (digitsOf ['1','2','5']) ['1','2','5'].length = 0)) :=
  ⟨by decide, by decide, by decide,
    validate_implements_recurrence ['1','2','5'] (by decide) (by decide)⟩

/-- C14 (as stated, refuted). On the digit string of `2^31 + 1` threes the
loop of `verhoeffGenerate` is skipped and the function returns `inv[0]`, which
is 0, while the accumulator `c_n` of the stated recurrence is 2 and `inv[2]`
is 3. -/
theorem generate_ignores_recurrence_beyond_int_max :
    (∀ ch ∈ List.replicate 2147483649 '3', IsDigit ch) ∧
    verhoeffGenerate (List.replicate 2147483649 '3') = some 0 ∧
    generateRecurrence (digitsOf (List.replicate 2147483649 '3'))
      (List.replicate 2147483649 '3').length = 2 ∧
    read1 inv 2 = some 3 := by
  refine ⟨fun ch h => isDigit_of_mem_replicate (by decide) h,
    (skipped_at_two_pow_31_add_one _ (List.length_replicate _ _)).2, ?_, by decide⟩
  rw [List.length_replicate, digitsOf_replicate_three,
    generateRecurrence_threes _ _ (Nat.le_refl _)]

/-- C14 (amended). On a string of digit characters of at most `INT_MAX`
characters `verhoeffGenerate` returns `inv[c_n]` for the accumulator `c_n` of
the recurrence `c_0 = 0`, `c_{k+1} = d[c_k][p[(k + 1) mod 8][x_k]]` over the
digits from the right. -/
theorem generate_implements_recurrence (num : List Char)
    (hlen : (num.length : Int) ≤ INT_MAX) (hd : ∀ ch ∈ num, IsDigit ch) :
    ∃ g, read1 inv ((generateRecurrence (digitsOf num) num.length : Nat) : Int) = some g ∧
      verhoeffGenerate num = some g := by
  have h := accumulate_eq_recurrence num hd 1 num.length 0 (by omega)
  simp only [shiftedRecurrence, Nat.zero_add, Nat.cast_one, Nat.cast_zero] at h
  have hlt := shiftedRecurrence_lt 1 (digitsOf num) (digitsOf_lt num hd) num.length
  obtain ⟨g, hg, _⟩ := read1_inv_defined
    (c := ((shiftedRecurrence 1 (digitsOf num) num.length : Nat) : Int)) (by omega) (by omega)
  refine ⟨g, by rw [generateRecurrence_eq]; exact hg, ?_⟩
  rw [verhoeffGenerate_eq_accumulate num hlen, h]
  exact hg

/-- Witness for C14: the digit string `12`, with `c_2 = 5` and check value 5. -/
theorem generate_implements_recurrence_witness :
    ((['1','2'].length : Nat) : Int) ≤ INT_MAX ∧ (∀ ch ∈ ['1','2'], IsDigit ch) ∧
    generateRecurrence (digitsOf ['1','2']) ['1','2'].length = 5 ∧
    ∃ g, read1 inv ((generateRecurrence (digitsOf ['1','2']) ['1','2'].length : Nat) : Int)
        = some g ∧ verhoeffGenerate ['1','2'] = some g :=
  ⟨by decide, by decide, by decide,
    generate_implements_recurrence ['1','2'] (by decide) (by decide)⟩

/-- On a string of digit characters that with one more character still has at
most `INT_MAX` characters: the accumulator of the loop of `verhoeffGenerate`,
and the accumulator of the loop of `verhoeffValidate` after any digit character
is appended. -/
theorem loops_on_appended_digit (s : List Char) (hlen : (s.length : Int) < INT_MAX)
    (hd : ∀ ch ∈ s, IsDigit ch) :
    ∃ c, generateLoop s (loopStart s.length + 1).toNat 0 0 = some c ∧ 0 ≤ c ∧ c < 10 ∧
      ∀ ch, IsDigit ch →
        validateLoop (s ++ [ch]) (loopStart (s ++ [ch]).length + 1).toNat 0 0 =
          some ((c + toDigit ch) % 10) := by
  obtain ⟨c, hc, hc0, hc10, hval⟩ := accumulate_append_digit_eq s hd
  refine ⟨c, ?_, hc0, hc10, ?_⟩
  · rw [loopStart_of_le _ (by omega), generateLoop_eq_accumulate s s.length 0 0 (by omega)]
    exact hc
  · intro ch hch
    have hl : (((s ++ [ch]).length : Nat) : Int) ≤ INT_MAX := by
      rw [List.length_append, List.length_singleton]; push_cast; omega
    rw [loopStart_of_le _ hl, validateLoop_eq_accumulate _ _ 0 0 (by omega)]
    exact hval ch hch

/-- C15 (as stated, refuted). For the digit string `s` of `2^31` ones,
`verhoeffValidate` skips its loop on `s` with the digit 0 appended (`2^31 + 1`
characters) and returns true, while `verhoeffGenerate s` does not return 0: its
loop runs `2^31` times and its last `pos + 1` leaves the range of `int`. -/
theorem generate_is_not_validate_with_zero_beyond_int_max :
    (∀ ch ∈ List.replicate 2147483648 '1', IsDigit ch) ∧
    verhoeffValidate (List.replicate 2147483648 '1' ++ ['0']) = some true ∧
    verhoeffGenerate (List.replicate 2147483648 '1') ≠ some 0 := by
  refine ⟨fun ch h => isDigit_of_mem_replicate (by decide) h,
    (skipped_at_two_pow_31_add_one _ ?_).1, ?_⟩
  · rw [List.length_append, List.length_replicate, List.length_singleton]
  · rw [generate_overflows_at_two_pow_31 _ (List.length_replicate _ _)]
    exact fun h => nomatch h

/-- C15 (amended). Offset-by-one equivalence on a string `s` of digit characters
that with one more character has at most `INT_MAX` characters: the final
accumulator of the loop of `verhoeffGenerate` on `s` is the final accumulator
of the loop of `verhoeffValidate` on `s` with the digit 0 appended;
`verhoeffGenerate s` is `inv` of that accumulator, and `verhoeffValidate`
accepts `s` with 0 appended exactly when `verhoeffGenerate s` is 0. -/
theorem generate_is_validate_with_zero_appended (s : List Char)
    (hlen : (s.length : Int) < INT_MAX) (hd : ∀ ch ∈ s, IsDigit ch) :
    ∃ c, generateLoop s (loopStart s.length + 1).toNat 0 0 = some c ∧
      validateLoop (s ++ ['0']) (loopStart (s ++ ['0']).length + 1).toNat 0 0 = some c ∧
      verhoeffGenerate s = read1 inv c ∧
      (verhoeffValidate (s ++ ['0']) = some true ↔ verhoeffGenerate s = some 0) := by
  obtain ⟨c, hgen, hc0, hc10, hval⟩ := loops_on_appended_digit s hlen hd
  have hz : IsDigit '0' := by decide
  have hv := hval '0' hz
  have htd : toDigit '0' = 0 := by decide
  rw [htd] at hv
  have hcc : (c + 0) % 10 = c := by omega
  rw [hcc] at hv
  obtain ⟨g, hg, _, _, hgz, _⟩ := read1_inv_defined hc0 hc10
  have hG : verhoeffGenerate s = read1 inv c := by
    unfold verhoeffGenerate
    rw [hgen]
    rfl
  refine ⟨c, hgen, hv, hG, ?_⟩
  unfold verhoeffValidate
  rw [hv, hG, hg]
  simp only [Option.map_some', Option.some.injEq, decide_eq_true_eq]
  exact hgz.symm

/-- Witness for C15: the digit string `12`, whose accumulator is 5. -/
theorem generate_is_validate_with_zero_appended_witness :
    ((['1','2'].length : Nat) : Int) < INT_MAX ∧ (∀ ch ∈ ['1','2'], IsDigit ch) ∧
    generateLoop ['1','2'] (loopStart ['1','2'].length + 1).toNat 0 0 = some 5 ∧
    ∃ c, generateLoop ['1','2'] (loopStart ['1','2'].length + 1).toNat 0 0 = some c ∧
      validateLoop (['1','2'] ++ ['0']) (loopStart (['1','2'] ++ ['0']).length + 1).toNat 0 0
        = some c ∧
      verhoeffGenerate ['1','2'] = read1 inv c ∧
      (verhoeffValidate (['1','2'] ++ ['0']) = some true ↔
        verhoeffGenerate ['1','2'] = some 0) :=
  ⟨by decide, by decide, by decide,
    generate_is_validate_with_zero_appended ['1','2'] (by decide) (by decide)⟩

/-- C16 (as stated, refuted). On the digit string of `2^31 + 1` threes the
loop of `verhoeffValidate` is skipped and the function returns true, while the
sum of `p[k mod 8][x_k]` over all positions is 9663676419, which is not
divisible by 10. -/
theorem validate_ignores_permuted_sum_beyond_int_max :
    (∀ ch ∈ List.replicate 2147483649 '3', IsDigit ch) ∧
    verhoeffValidate (List.replicate 2147483649 '3') = some true ∧
    permutedDigitSum (digitsOf (List.replicate 2147483649 '3'))
      (List.replicate 2147483649 '3').length = 9663676419 ∧
    ¬ 10 ∣ 9663676419 := by
  refine ⟨fun ch h => isDigit_of_mem_replicate (by decide) h,
    (skipped_at_two_pow_31_add_one _ (List.length_replicate _ _)).1, ?_, by decide⟩
  rw [List.length_replicate, digitsOf_replicate_three,
    permutedDigitSum_threes _ _ (Nat.le_refl _)]

/-- C16 (amended). The table `d` holds `d[i][j] = (i + j) mod 10` for all `i`,
`j` in `0..9`, and on a string of digit characters of at most `INT_MAX`
characters `verhoeffValidate` returns true exactly when the sum of
`p[k mod 8][x_k]` over all positions `k` from the right is divisible by 10. -/
theorem validate_iff_permuted_sum_divisible (num : List Char)
    (hlen : (num.length : Int) ≤ INT_MAX) (hd : ∀ ch ∈ num, IsDigit ch) :
    (∀ i : Fin 10, ∀ j : Fin 10,
      read2 d i.val j.val = some (((i.val + j.val) % 10 : Nat) : Int)) ∧
    verhoeffValidate num =
      some (decide (10 ∣ permutedDigitSum (digitsOf num) num.length)) := by
  refine ⟨by decide, ?_⟩
  have h := accumulate_eq_recurrence num hd 0 num.length 0 (by omega)
  simp only [shiftedRecurrence, Nat.add_zero, Nat.cast_zero] at h
  rw [verhoeffValidate_eq_accumulate num hlen, h, ← validateRecurrence_eq,
    validateRecurrence_eq_sum _ (digitsOf_lt num hd)]
  simp only [Option.map_some', Option.some.injEq, decide_eq_decide]
  rw [Nat.dvd_iff_mod_eq_zero]
  constructor <;> intro h0 <;> omega

/-- Witness for C16: the digit string `125`, whose permuted digits sum to 20. -/
theorem validate_iff_permuted_sum_divisible_witness :
    ((['1','2','5'].length : Nat) : Int) ≤ INT_MAX ∧ (∀ ch ∈ ['1','2','5'], IsDigit ch) ∧
    permutedDigitSum (digitsOf ['1','2','5']) ['1','2','5'].length = 20 ∧
    verhoeffValidate ['1','2','5'] =
      some (decide (10 ∣ permutedDigitSum (digitsOf ['1','2','5']) ['1','2','5'].length)) :=
  ⟨by decide, by decide, by decide,
    (validate_iff_permuted_sum_divisible ['1','2','5'] (by decide) (by decide)).2⟩

/-- C17 (as stated, refuted). For the digit string `s` of `2^31` ones,
`verhoeffValidate` skips its loop on `s` with any one character appended
(`2^31 + 1` characters) and returns true, while `verhoeffGenerate s` returns
neither 0 nor 5: its loop runs `2^31` times and its last `pos + 1` leaves the
range of `int`. -/
theorem generated_digit_accepted_beyond_int_max :
    (∀ ch ∈ List.replicate 2147483648 '1', IsDigit ch) ∧
    (∀ ch, verhoeffValidate (List.replicate 2147483648 '1' ++ [ch]) = some true) ∧
    verhoeffGenerate (List.replicate 2147483648 '1') ≠ some 0 ∧
    verhoeffGenerate (List.replicate 2147483648 '1') ≠ some 5 := by
  refine ⟨fun ch h => isDigit_of_mem_replicate (by decide) h,
    fun ch => (skipped_at_two_pow_31_add_one _ ?_).1, ?_, ?_⟩
  · rw [List.length_append, List.length_replicate, List.length_singleton]
  · rw [generate_overflows_at_two_pow_31 _ (List.length_replicate _ _)]
    exact fun h => nomatch h
  · rw [generate_overflows_at_two_pow_31 _ (List.length_replicate _ _)]
    exact fun h => nomatch h

/-- C17 (amended). On every string `s` of digit characters, the empty one
included, that with one more character has at most `INT_MAX` characters,
`verhoeffGenerate s` returns a value `g`, and `verhoeffValidate` accepts `s`
with `g` appended exactly when `g` is 0 or 5. -/
theorem generated_digit_accepted_iff_zero_or_five (s : List Char)
    (hlen : (s.length : Int) < INT_MAX) (hd : ∀ ch ∈ s, IsDigit ch) :
    ∃ g, verhoeffGenerate s = some g ∧
      verhoeffValidate (s ++ [digitChar g]) = some (decide (g = 0 ∨ g = 5)) := by
  obtain ⟨c, hgen, hc0, hc10, hval⟩ := loops_on_appended_digit s hlen hd
  obtain ⟨g, hg, hg0, hg10, _, hsum⟩ := read1_inv_defined hc0 hc10
  obtain ⟨hdig, htd⟩ := toDigit_digitChar hg0 hg10
  refine ⟨g, ?_, ?_⟩
  · unfold verhoeffGenerate
    rw [hgen]
    exact hg
  · unfold verhoeffValidate
    rw [hval _ hdig, htd]
    simp only [Option.map_some', Option.some.injEq, decide_eq_decide]
    exact hsum

/-- Witness for C17: for `12` the generated value is 5 and `125` is accepted. -/
theorem generated_digit_accepted_iff_zero_or_five_witness :
    ((['1','2'].length : Nat) : Int) < INT_MAX ∧ (∀ ch ∈ ['1','2'], IsDigit ch) ∧
    verhoeffGenerate ['1','2'] = some 5 ∧
    ∃ g, verhoeffGenerate ['1','2'] = some g ∧
      verhoeffValidate (['1','2'] ++ [digitChar g]) = some (decide (g = 0 ∨ g = 5)) :=
  ⟨by decide, by decide, by decide,
    generated_digit_accepted_iff_zero_or_five ['1','2'] (by decide) (by decide)⟩

/-- C18 (as stated, refuted). For the digit string `s` of `2^31` ones,
`verhoeffValidate` skips its loop on `s` with a digit appended and accepts two
different appended digits, 0 and 1. -/
theorem accepted_check_digit_not_unique_beyond_int_max :
    (∀ ch ∈ List.replicate 2147483648 '1', IsDigit ch) ∧
    verhoeffValidate (List.replicate 2147483648 '1' ++ ['0']) = some true ∧
    verhoeffValidate (List.replicate 2147483648 '1' ++ ['1']) = some true := by
  refine ⟨fun ch h => isDigit_of_mem_replicate (by decide) h,
    (skipped_at_two_pow_31_add_one _ ?_).1, (skipped_at_two_pow_31_add_one _ ?_).1⟩
  · rw [List.length_append, List.length_replicate, List.length_singleton]
  · rw [List.length_append, List.length_replicate, List.length_singleton]

/-- C18 (amended). For every string `s` of digit characters that with one more
character has at most `INT_MAX` characters there is exactly one digit character
whose appending to `s` makes `verhoeffValidate` return true. -/
theorem accepted_check_digit_exists_unique (s : List Char)
    (hlen : (s.length : Int) < INT_MAX) (hd : ∀ ch ∈ s, IsDigit ch) :
    ∃! ch : Char, IsDigit ch ∧ verhoeffValidate (s ++ [ch]) = some true := by
  obtain ⟨c, _, hc0, hc10, hval⟩ := loops_on_appended_digit s hlen hd
  have hacc : ∀ ch, IsDigit ch →
      (verhoeffValidate (s ++ [ch]) = some true ↔ toDigit ch = (10 - c) % 10) := by
    intro ch hch
    obtain ⟨h0, h10⟩ := toDigit_bounds hch
    unfold verhoeffValidate
    rw [hval ch hch]
    simp only [Option.map_some', Option.some.injEq, decide_eq_true_eq]
    omega
  obtain ⟨hdig, htd⟩ := toDigit_digitChar (k := (10 - c) % 10) (by omega) (by omega)
  refine ⟨digitChar ((10 - c) % 10), ⟨hdig, (hacc _ hdig).2 htd⟩, ?_⟩
  rintro ch ⟨hch, hv⟩
  exact toDigit_injective (((hacc ch hch).1 hv).trans htd.symm)

/-- Witness for C18: the digit string `82351974062` of the program's example. -/
theorem accepted_check_digit_exists_unique_witness :
    ((examplePayload.length : Nat) : Int) < INT_MAX ∧ (∀ ch ∈ examplePayload, IsDigit ch) ∧
    verhoeffValidate (examplePayload ++ ['1']) = some true ∧
    ∃! ch : Char, IsDigit ch ∧ verhoeffValidate (examplePayload ++ [ch]) = some true :=
  ⟨by decide, by decide, by decide,
    accepted_check_digit_exists_unique examplePayload (by decide) (by decide)⟩

/-! ## The rows of `p` -/

/-- C19. The rows of `p` are the successive iterates of row 1: row 0 is the
identity on `0..9`, and for every row `i` in `0..7` and digit `x` the entry
`p[(i + 1) mod 8][x]` is `p[1][p[i][x]]`, all reads being inside the table. No
row other than row 0 is the identity, so row 1 has order 8. -/
theorem p_rows_are_iterates_of_row_one :
    (∀ x : Fin 10, read2 p 0 x.val = some (x.val : Int)) ∧
    (∀ i : Fin 8, ∀ x : Fin 10,
      (read2 p (((i.val + 1) % 8 : Nat) : Int) x.val).isSome = true ∧
      read2 p (((i.val + 1) % 8 : Nat) : Int) x.val =
        (read2 p i.val x.val).bind (fun y => read2 p 1 y)) ∧
    (∀ i : Fin 8, i.val ≠ 0 → p[i.val]? ≠ p[0]?) := by
  decide
end Verhoeff
